import Mathlib

/-!
# Verification of MLDB's procedure layer (src/core/procedure.h)

Shallow embedding of the configuration-merge engine
(`Procedure::applyRunConfOverProcConf`, procedure.h lines 131-157) and of the
validator machinery (`validate`, `NoGroupByHaving`, `PlainColumnSelect`,
`FeaturesLabelSelect`, procedure.h lines 364-560), together with proofs of the
specified properties.

The merge operates on `Json::Value` trees (the vendored jsoncpp, an external
collaborator of this core).  The embedding reflects that library's semantics,
on which the merge lambda visibly relies:

* `isObject()` is true for null values as well as for objects (old-style
  jsoncpp; this is what lets `a[key] = Json::Value(); update(a[key], b[key])`
  copy an object subtree of `b` into a fresh slot of `a`);
* non-const `operator[]` on a null value turns it into an object;
* `getMemberNames()` of a null value is empty, and of an object returns the
  keys in sorted order (objects are key-sorted maps);
* `a[key] = v` inserts or replaces at the sorted position of `key`.

Objects are embedded as association lists of `(key, value)` pairs; the
canonical (well-formed) trees produced by jsoncpp have strictly key-sorted
member lists, captured by `Json.wf` below.
-/

/-- Embedding of a `Json::Value` tree: null, scalars, sequences and
    mappings.  Mappings are association lists of key/value pairs; jsoncpp
    keeps them sorted by key (`Json.wf`). -/
inductive Json where
  | null : Json
  | bool : Bool → Json
  | num : Int → Json
  | str : String → Json
  | arr : List Json → Json
  | obj : List (String × Json) → Json
deriving Repr

/-- `Json::Value::isObject()` of the vendored jsoncpp: true for objects and
    also for null values (which auto-convert to objects on member write). -/
def Json.isObjectShaped : Json → Bool
  | .null => true
  | .obj _ => true
  | _ => false

/-- Member list of a value, as seen by `getMemberNames`/member iteration:
    empty for null, the member list for objects. -/
def Json.membersOf : Json → List (String × Json)
  | .obj ms => ms
  | _ => []

/-- Lookup of a member by key in an object's member list
    (`Json::Value::operator[] const` / `isMember`). -/
def lookupMem : List (String × Json) → String → Option Json
  | [], _ => none
  | (k1, v1) :: rest, k => if k1 = k then some v1 else lookupMem rest k

/-- `Json::Value::isMember(key)`. -/
def isMember (ms : List (String × Json)) (k : String) : Bool :=
  (lookupMem ms k).isSome

/-- Member read with jsoncpp's default: a missing member reads as null. -/
def getMem (ms : List (String × Json)) (k : String) : Json :=
  (lookupMem ms k).getD .null

/-- `a[key] = v` on a key-sorted member list: insert at the sorted position,
    or replace the existing entry (std::map insertion order). -/
def setMem : List (String × Json) → String → Json → List (String × Json)
  | [], k, v => [(k, v)]
  | (k1, v1) :: rest, k, v =>
    if k < k1 then (k, v) :: (k1, v1) :: rest
    else if k1 < k then (k1, v1) :: setMem rest k v
    else (k, v) :: rest

mutual
/-- Embedding of the `update` lambda of `Procedure::applyRunConfOverProcConf`
    (procedure.h lines 137-151): recursively copy the values of `b` into `a`.
    If either side fails the `isObject()` test the value `a` is returned
    unchanged; otherwise each member of `b` is folded into `a`'s members.
    A null `a` only becomes an object when at least one member write happens,
    i.e. when `b` has at least one member. -/
def jsonUpdate (a b : Json) : Json :=
  if a.isObjectShaped && b.isObjectShaped then
    match b with
    | .obj (c :: rest) => .obj (updateMembers a.membersOf (c :: rest))
    | _ => a
  else a
termination_by sizeOf b

/-- One iteration of the `for (const auto & key : b.getMemberNames())` loop
    of the `update` lambda, on `a`'s member list `ms` at `b`'s member
    `(k, bv)`: if `bv` passes `isObject()` then a missing `a[k]` is first
    created null and `update` recurses into `a[k]`; otherwise `a[k] = bv`. -/
def updateStep (ms : List (String × Json)) (k : String) (bv : Json) :
    List (String × Json) :=
  if bv.isObjectShaped then
    let ms0 := if isMember ms k then ms else setMem ms k .null
    setMem ms0 k (jsonUpdate (getMem ms0 k) bv)
  else setMem ms k bv
termination_by sizeOf bv + 1

/-- The member loop of the `update` lambda: fold `updateStep` over `b`'s
    members in order. -/
def updateMembers : List (String × Json) → List (String × Json) → List (String × Json)
  | ms, [] => ms
  | ms, (k, bv) :: rest => updateMembers (updateStep ms k bv) rest
termination_by _ bs => sizeOf bs
end

mutual
/-- The reference deep merge exactly as the spec's §4.4 rules word it:
    a key only in `A` is kept; a key in both whose values are both
    mapping/object-shaped is merged recursively; a key in both where either
    side is not a mapping (scalar, sequence, or mixed) is replaced outright by
    `B`'s value; a key only in `B` is added.  Written as a sorted two-list
    merge over canonical member lists. -/
def specMergeVal : Json → Json → Json
  | .obj as, .obj bs => .obj (specMergeMembers as bs)
  | _, vb => vb
termination_by a b => (sizeOf b, sizeOf a)

/-- Key-by-key form of the spec's rules on two sorted member lists. -/
def specMergeMembers : List (String × Json) → List (String × Json) → List (String × Json)
  | [], bs => bs
  | a :: as, [] => a :: as
  | (ka, va) :: as, (kb, vb) :: bs =>
    if ka < kb then (ka, va) :: specMergeMembers as ((kb, vb) :: bs)
    else if kb < ka then (kb, vb) :: specMergeMembers ((ka, va) :: as) bs
    else (ka, specMergeVal va vb) :: specMergeMembers as bs
termination_by as bs => (sizeOf bs, sizeOf as)
end

mutual
/-- The deep merge the code actually computes, stated as key-by-key rules
    (the amended form of the spec's §4.4 rules): at a member value, a `B`
    value that is not object-shaped wins outright; a `B` value that is
    object-shaped (an object, or null) meets an `A` value that is
    object-shaped by recursion (leaving `A`'s value untouched when the `B`
    object has no members), and meets a non-object-shaped `A` value by
    keeping `A`'s value; a key only in `B` is added as its value merged
    into null. -/
def refMergeVal : Json → Json → Json
  | va, vb =>
    if vb.isObjectShaped then
      if va.isObjectShaped then
        match vb with
        | .obj (c :: rest) => .obj (refMergeMembers va.membersOf (c :: rest))
        | _ => va
      else va
    else vb
termination_by a b => (sizeOf b, sizeOf a)

/-- Key-by-key merge of two sorted member lists under the amended rules. -/
def refMergeMembers : List (String × Json) → List (String × Json) → List (String × Json)
  | [], [] => []
  | [], (kb, vb) :: bs => (kb, refMergeVal .null vb) :: refMergeMembers [] bs
  | a :: as, [] => a :: as
  | (ka, va) :: as, (kb, vb) :: bs =>
    if ka < kb then (ka, va) :: refMergeMembers as ((kb, vb) :: bs)
    else if kb < ka then (kb, refMergeVal .null vb) :: refMergeMembers ((ka, va) :: as) bs
    else (ka, refMergeVal va vb) :: refMergeMembers as bs
termination_by as bs => (sizeOf bs, sizeOf as)
end

/-- Top-level amended reference merge: as in the code's top-level guard, if
    either tree fails the `isObject()` test, `A` is returned unchanged. -/
def refMerge (a b : Json) : Json :=
  if a.isObjectShaped && b.isObjectShaped then refMergeVal a b else a

mutual
/-- Canonical (well-formed) jsoncpp tree: every object's member list is
    strictly sorted by key, recursively. -/
def Json.wf : Json → Bool
  | .obj ms => msWf ms
  | _ => true
termination_by j => sizeOf j

/-- Member-list well-formedness: each value well-formed and each key strictly
    below every later key. -/
def msWf : List (String × Json) → Bool
  | [] => true
  | (k, v) :: rest => v.wf && rest.all (fun p => decide (k < p.1)) && msWf rest
termination_by ms => sizeOf ms
end

/-- Embedding of `ProcedureRunConfig` (procedure.h lines 41-44): a run id and
    the override params (the `Any` blob, given by its JSON encoding). -/
structure ProcedureRunConfig where
  id : String
  params : Json

/-- Embedding of `Procedure::applyRunConfOverProcConf` (procedure.h lines
    131-157), parameterized by the kind's concrete configuration type with its
    JSON encoder and decoder (the value-description machinery is an external
    collaborator; `jsonDecode<ProcConfigType>` applies the type's default
    description, and a schema mismatch is a reported decode error).  The C++
    builds a fresh tree `modifiedRun` from `procConf`'s encoding, lets the
    `update` lambda write only into that copy, and decodes the result; the
    embedded function returns the decoded effective configuration together
    with the post-call values of the two inputs. -/
def applyRunConfOverProcConf {Config : Type} (enc : Config → Json)
    (dec : Json → Except String Config) (procConf : Config)
    (run : ProcedureRunConfig) :
    Except String Config × Config × ProcedureRunConfig :=
  let modifiedRun := enc procConf
  let merged := jsonUpdate modifiedRun run.params
  (dec merged, procConf, run)

/-- Modelled from the spec: construction-time decoding of a configuration
    tree.  The registry entry made by `registerProcedureType` (procedure.h
    line 342) stores the kind's default value description as its decoder, so
    constructing from a static configuration tree applies that same decoder
    to the tree; the decoding code itself lives outside src/. -/
def constructionDecode {Config : Type} (dec : Json → Except String Config)
    (tree : Json) : Except String Config :=
  dec tree

/-- Classification of a parsed `SqlExpression` by its dynamic node type, the
    only thing the validators inspect through `dynamic_pointer_cast` (the
    query-expression AST is an external collaborator; only the node kinds the
    validators test for, plus constants for `isConstantTrue`, are
    distinguished). -/
inductive SqlExpression where
  | readVariable (varName : String)
  | selectWithin
  | isType
  | comparison
  | booleanOperator
  | constant (isTrue : Bool)
  | otherExpr
deriving DecidableEq, Repr

/-- `SqlExpression::isConstantTrue()`: a constant that evaluates to true. -/
def SqlExpression.isConstantTrue : SqlExpression → Bool
  | .constant b => b
  | _ => false

/-- A projection clause (`SqlRowExpression`) by dynamic node type:
    a wildcard, a `SelectColumnExpression`, a `ComputedVariable` (with its
    `alias` member, here `aliasName`, and inner expression), or any other
    row expression.  Each carries its `surface` form. -/
inductive SqlRowExpression where
  | wildcard (surface : String)
  | selectColumn (surface : String)
  | computed (aliasName : String) (expression : SqlExpression) (surface : String)
  | otherRow (surface : String)
deriving DecidableEq, Repr

/-- The `surface` member of a row expression. -/
def SqlRowExpression.surface : SqlRowExpression → String
  | .wildcard s => s
  | .selectColumn s => s
  | .computed _ _ s => s
  | .otherRow s => s

/-- The select list of a statement (`SelectExpression::clauses`). -/
structure SelectExpression where
  clauses : List SqlRowExpression
deriving DecidableEq, Repr

/-- A tuple of expressions (`TupleExpression`), used for GROUP BY. -/
structure TupleExpression where
  clauses : List SqlExpression
deriving DecidableEq, Repr

/-- `TupleExpression::empty()`. -/
def TupleExpression.empty (t : TupleExpression) : Bool :=
  t.clauses.isEmpty

/-- The parts of a parsed `SelectStatement` the validators inspect. -/
structure SelectStatement where
  select : SelectExpression
  groupBy : TupleExpression
  having : SqlExpression
deriving DecidableEq, Repr

/-- A query configuration field: per the validators' contract, `FieldType`
    must contain a `SelectStatement` named `stm` (a possibly-null shared
    pointer, hence an `Option`). -/
structure InputQuery where
  stm : Option SelectStatement
deriving DecidableEq, Repr

/-- Embedding of the `NoGroupByHaving` validator (procedure.h lines 412-425):
    with a statement present, throw if the groupBy clause is non-empty, else
    throw if the having clause is not a constant true; a thrown
    `ML::Exception` is an `Except.error` carrying the formatted message. -/
def noGroupByHaving (query : InputQuery) (name : String) : Except String Unit :=
  match query.stm with
  | some stm =>
    if !stm.groupBy.empty then
      .error ("cannot train " ++ name ++ " with a groupBy clause")
    else if !stm.having.isConstantTrue then
      .error ("cannot train " ++ name ++ " with a having clause")
    else .ok ()
  | none => .ok ()

/-- The inner-expression test of `PlainColumnSelect` on a `ComputedVariable`:
    the expression must cast to one of `ReadVariableExpression`,
    `SelectWithinExpression`, `IsTypeExpression`, `ComparisonExpression`, or
    `BooleanOperatorExpression`. -/
def plainColumnInnerOk : SqlExpression → Bool
  | .readVariable _ => true
  | .selectWithin => true
  | .isType => true
  | .comparison => true
  | .booleanOperator => true
  | _ => false

/-- The per-clause test of `PlainColumnSelect`: a wildcard, a
    `SelectColumnExpression`, or a `ComputedVariable` passing
    `plainColumnInnerOk`; anything else triggers the throw. -/
def plainColumnClauseOk : SqlRowExpression → Bool
  | .wildcard _ => true
  | .selectColumn _ => true
  | .computed _ e _ => plainColumnInnerOk e
  | .otherRow _ => false

/-- The clause loop of `PlainColumnSelect` (procedure.h lines 486-522):
    `continue` on each accepted clause, throw quoting the surface form of the
    first clause that is not accepted. -/
def plainColumnCheckClauses (name : String) :
    List SqlRowExpression → Except String Unit
  | [] => .ok ()
  | c :: rest =>
    if plainColumnClauseOk c then plainColumnCheckClauses name rest
    else .error (name ++ " training only accept wildcard and column names at "
                  ++ c.surface)

/-- Embedding of the `PlainColumnSelect` validator (procedure.h lines
    432-525). -/
def plainColumnSelect (query : InputQuery) (name : String) : Except String Unit :=
  match query.stm with
  | some stm => plainColumnCheckClauses name stm.select.clauses
  | none => .ok ()

/-- Whether a clause is a `ComputedVariable` whose alias is exactly `a`. -/
def isComputedWithAlias (a : String) : SqlRowExpression → Bool
  | .computed aliasName _ _ => aliasName == a
  | _ => false

/-- Embedding of the `FeaturesLabelSelect` validator (procedure.h lines
    531-560): scan the select clauses for computed variables aliased
    `features` and `label`; throw if either is missing. -/
def featuresLabelSelect (query : InputQuery) (name : String) : Except String Unit :=
  match query.stm with
  | some stm =>
    let foundFeatures := stm.select.clauses.any (isComputedWithAlias "features")
    let foundLabel := stm.select.clauses.any (isComputedWithAlias "label")
    if !foundFeatures || !foundLabel then
      .error (name ++ " training expect a row named \x27features\x27 and a scalar named \x27label\x27")
    else .ok ()
  | none => .ok ()

/-- Embedding of the one-validator `validate` overload (procedure.h lines
    364-374): the returned closure reads the field out of the configuration
    and applies the validator; a validator failure is a thrown exception,
    i.e. an `Except.error` that aborts the closure. -/
def validate1 {C F : Type} (field : C → F) (name : String)
    (v1 : F → String → Except String Unit) (cfg : C) : Except String Unit :=
  v1 (field cfg) name

/-- Embedding of the two-validator `validate` overload (procedure.h lines
    377-389): the validators run in declared order; the first thrown
    exception propagates, skipping the rest. -/
def validate2 {C F : Type} (field : C → F) (name : String)
    (v1 v2 : F → String → Except String Unit) (cfg : C) : Except String Unit :=
  match v1 (field cfg) name with
  | .error e => .error e
  | .ok _ => v2 (field cfg) name

/-- Embedding of the three-validator `validate` overload (procedure.h lines
    392-406). -/
def validate3 {C F : Type} (field : C → F) (name : String)
    (v1 v2 v3 : F → String → Except String Unit) (cfg : C) : Except String Unit :=
  match v1 (field cfg) name with
  | .error e => .error e
  | .ok _ =>
    match v2 (field cfg) name with
    | .error e => .error e
    | .ok _ => v3 (field cfg) name

/-- The spec's classification of an allowed Plain-Column-Projection clause:
    a wildcard, a bare column reference, or a computed alias whose expression
    is a bare column reference, a row-construction (within) expression, a
    type-test, a comparison, or a boolean combinator. -/
def specAllowedClause (c : SqlRowExpression) : Prop :=
  (∃ s, c = .wildcard s) ∨ (∃ s, c = .selectColumn s) ∨
  (∃ a e s, c = .computed a e s ∧
    ((∃ v, e = .readVariable v) ∨ e = .selectWithin ∨ e = .isType ∨
      e = .comparison ∨ e = .booleanOperator))

/-! ## Bridging lemmas for the validators -/

theorem specAllowedClause_iff_clauseOk (c : SqlRowExpression) :
    specAllowedClause c ↔ plainColumnClauseOk c = true := by
  cases c with
  | wildcard s => simp [specAllowedClause, plainColumnClauseOk]
  | selectColumn s => simp [specAllowedClause, plainColumnClauseOk]
  | computed a e s =>
    cases e <;>
      simp [specAllowedClause, plainColumnClauseOk, plainColumnInnerOk] <;>
        exact ⟨a, _, ⟨rfl, rfl⟩, by simp⟩
  | otherRow s => simp [specAllowedClause, plainColumnClauseOk]

theorem plainColumnCheckClauses_ok_iff (name : String) (cs : List SqlRowExpression) :
    plainColumnCheckClauses name cs = .ok () ↔
      ∀ c ∈ cs, plainColumnClauseOk c = true := by
  induction cs with
  | nil => simp [plainColumnCheckClauses]
  | cons c rest ih =>
    by_cases hc : plainColumnClauseOk c = true
    · simp [plainColumnCheckClauses, hc, ih]
    · simp [plainColumnCheckClauses, hc]

theorem plainColumnCheckClauses_error (name : String) (cs : List SqlRowExpression)
    (e : String) (h : plainColumnCheckClauses name cs = .error e) :
    ∃ c ∈ cs, plainColumnClauseOk c = false ∧
      e = name ++ " training only accept wildcard and column names at " ++ c.surface := by
  induction cs with
  | nil => simp [plainColumnCheckClauses] at h
  | cons c rest ih =>
    by_cases hc : plainColumnClauseOk c = true
    · simp only [plainColumnCheckClauses, hc, if_true] at h
      obtain ⟨c', hc', hbad, he⟩ := ih h
      exact ⟨c', by simp [hc'], hbad, he⟩
    · simp only [plainColumnCheckClauses, hc, if_false] at h
      refine ⟨c, by simp, by simpa using hc, ?_⟩
      cases h
      rfl

theorem any_isComputedWithAlias (a : String) (cs : List SqlRowExpression) :
    cs.any (isComputedWithAlias a) = true ↔
      ∃ c ∈ cs, ∃ e s, c = .computed a e s := by
  rw [List.any_eq_true]
  constructor
  · rintro ⟨c, hc, hq⟩
    cases c with
    | computed a' e s =>
      simp only [isComputedWithAlias, beq_iff_eq] at hq
      exact ⟨_, hc, e, s, by rw [hq]⟩
    | wildcard s => simp [isComputedWithAlias] at hq
    | selectColumn s => simp [isComputedWithAlias] at hq
    | otherRow s => simp [isComputedWithAlias] at hq
  · rintro ⟨c, hc, e, s, rfl⟩
    exact ⟨_, hc, by simp [isComputedWithAlias]⟩

/-! ## Claims about the validators -/

/-- C3: for a query field whose statement is present, `NoGroupByHaving` fails
    exactly when the grouping clause is non-empty or the having clause is not
    a trivially-true constant, succeeds silently otherwise, and on failure
    the error message names the validated field. -/
theorem noGroupByHaving_spec (q : InputQuery) (stm : SelectStatement)
    (name : String) (h : q.stm = some stm) :
    ((∃ e, noGroupByHaving q name = .error e) ↔
      (stm.groupBy.clauses ≠ [] ∨ stm.having.isConstantTrue = false)) ∧
    (stm.groupBy.clauses = [] → stm.having.isConstantTrue = true →
      noGroupByHaving q name = .ok ()) ∧
    (∀ e, noGroupByHaving q name = .error e →
      (e = "cannot train " ++ name ++ " with a groupBy clause" ∨
        e = "cannot train " ++ name ++ " with a having clause") ∧
      ∃ p s, e = p ++ name ++ s) := by
  unfold noGroupByHaving
  rw [h]
  rcases hg : stm.groupBy.clauses with _ | ⟨g, gs⟩ <;>
    rcases hh : stm.having.isConstantTrue with _ | _ <;>
      simp [TupleExpression.empty, hg, hh]
  · exact ⟨"cannot train ", " with a having clause", rfl⟩
  · exact ⟨"cannot train ", " with a groupBy clause", rfl⟩
  · exact ⟨"cannot train ", " with a groupBy clause", rfl⟩

/-- Witness for C3: a statement with a non-empty grouping clause is rejected. -/
theorem noGroupByHaving_spec_witness :
    ∃ e, noGroupByHaving ⟨some ⟨⟨[]⟩, ⟨[.comparison]⟩, .constant true⟩⟩ "svd" = .error e := by
  have h := noGroupByHaving_spec ⟨some ⟨⟨[]⟩, ⟨[.comparison]⟩, .constant true⟩⟩
    ⟨⟨[]⟩, ⟨[.comparison]⟩, .constant true⟩ "svd" rfl
  exact h.1.mpr (Or.inl (by simp))

/-- C2: for a query field whose statement is present, `PlainColumnSelect`
    succeeds exactly when every projection clause is allowed (wildcard, bare
    column, or computed alias over a bare column / row-construction /
    type-test / comparison / boolean combinator), and on failure the error
    quotes the offending clause's surface form. -/
theorem plainColumnSelect_spec (q : InputQuery) (stm : SelectStatement)
    (name : String) (h : q.stm = some stm) :
    (plainColumnSelect q name = .ok () ↔
      ∀ c ∈ stm.select.clauses, specAllowedClause c) ∧
    (∀ e, plainColumnSelect q name = .error e →
      ∃ c ∈ stm.select.clauses, ¬ specAllowedClause c ∧
        e = name ++ " training only accept wildcard and column names at " ++ c.surface) := by
  unfold plainColumnSelect
  rw [h]
  constructor
  · rw [plainColumnCheckClauses_ok_iff]
    exact ⟨fun hall c hc => (specAllowedClause_iff_clauseOk c).mpr (hall c hc),
      fun hall c hc => (specAllowedClause_iff_clauseOk c).mp (hall c hc)⟩
  · intro e he
    obtain ⟨c, hc, hbad, hmsg⟩ := plainColumnCheckClauses_error name _ e he
    refine ⟨c, hc, ?_, hmsg⟩
    rw [specAllowedClause_iff_clauseOk, hbad]
    simp

/-- Witness for C2: a projection clause that is an aggregate-style transform
    is rejected. -/
theorem plainColumnSelect_spec_witness :
    plainColumnSelect ⟨some ⟨⟨[.otherRow "sum({*})"]⟩, ⟨[]⟩, .constant true⟩⟩ "cls" ≠ .ok () := by
  intro hok
  have h := plainColumnSelect_spec ⟨some ⟨⟨[.otherRow "sum({*})"]⟩, ⟨[]⟩, .constant true⟩⟩
    ⟨⟨[.otherRow "sum({*})"]⟩, ⟨[]⟩, .constant true⟩ "cls" rfl
  have hall := h.1.mp hok (.otherRow "sum({*})") (by simp)
  simp [specAllowedClause] at hall

/-- C4: for a query field whose statement is present, `FeaturesLabelSelect`
    succeeds exactly when the projection list has a computed column aliased
    `features` and one aliased `label`; otherwise it fails with the
    fixed message naming the field. -/
theorem featuresLabelSelect_spec (q : InputQuery) (stm : SelectStatement)
    (name : String) (h : q.stm = some stm) :
    (featuresLabelSelect q name = .ok () ↔
      ((∃ c ∈ stm.select.clauses, ∃ e s, c = .computed "features" e s) ∧
        (∃ c ∈ stm.select.clauses, ∃ e s, c = .computed "label" e s))) ∧
    (∀ e, featuresLabelSelect q name = .error e →
      e = name ++ " training expect a row named \x27features\x27 and a scalar named \x27label\x27") := by
  unfold featuresLabelSelect
  rw [h]
  rw [← any_isComputedWithAlias "features" stm.select.clauses,
    ← any_isComputedWithAlias "label" stm.select.clauses]
  rcases hF : stm.select.clauses.any (isComputedWithAlias "features") with _ | _ <;>
    rcases hL : stm.select.clauses.any (isComputedWithAlias "label") with _ | _ <;>
      simp [hF, hL]

/-- Witness for C4: a statement missing a `label`-aliased computed column is
    rejected. -/
theorem featuresLabelSelect_spec_witness :
    featuresLabelSelect
      ⟨some ⟨⟨[.computed "features" (.readVariable "x") "features: x"]⟩, ⟨[]⟩, .constant true⟩⟩
      "cls2" ≠ .ok () := by
  intro hok
  have h := featuresLabelSelect_spec
    ⟨some ⟨⟨[.computed "features" (.readVariable "x") "features: x"]⟩, ⟨[]⟩, .constant true⟩⟩
    ⟨⟨[.computed "features" (.readVariable "x") "features: x"]⟩, ⟨[]⟩, .constant true⟩
    "cls2" rfl
  have hlab := (h.1.mp hok).2
  simp at hlab

/-- C5: the composed validator of each `validate` overload applies its 1-3
    validators in declared order, succeeds exactly when all of them succeed,
    and aborts at the first failing validator: when an earlier validator
    fails, the composed result is that failure for every possible choice of
    the later validators, so the later ones are never consulted. -/
theorem validate_chain_spec {C F : Type} (field : C → F) (name : String)
    (v1 v2 v3 : F → String → Except String Unit) (cfg : C) :
    (validate1 field name v1 cfg = .ok () ↔ v1 (field cfg) name = .ok ()) ∧
    (validate2 field name v1 v2 cfg = .ok () ↔
      (v1 (field cfg) name = .ok () ∧ v2 (field cfg) name = .ok ())) ∧
    (validate3 field name v1 v2 v3 cfg = .ok () ↔
      (v1 (field cfg) name = .ok () ∧ v2 (field cfg) name = .ok () ∧
        v3 (field cfg) name = .ok ())) ∧
    (∀ e, v1 (field cfg) name = .error e →
      validate1 field name v1 cfg = .error e ∧
      validate2 field name v1 v2 cfg = .error e ∧
      validate3 field name v1 v2 v3 cfg = .error e) ∧
    (∀ e, v1 (field cfg) name = .ok () → v2 (field cfg) name = .error e →
      validate2 field name v1 v2 cfg = .error e ∧
      validate3 field name v1 v2 v3 cfg = .error e) ∧
    (∀ e, v1 (field cfg) name = .ok () → v2 (field cfg) name = .ok () →
      v3 (field cfg) name = .error e →
      validate3 field name v1 v2 v3 cfg = .error e) := by
  rcases h1 : v1 (field cfg) name with e1 | ⟨⟩ <;>
    rcases h2 : v2 (field cfg) name with e2 | ⟨⟩ <;>
      rcases h3 : v3 (field cfg) name with e3 | ⟨⟩ <;>
        simp_all [validate1, validate2, validate3]

/-- Witness for C5: with a failing second validator, the three-validator
    chain reports exactly that failure. -/
theorem validate_chain_spec_witness :
    validate3 (fun _ : Unit => ()) "q" (fun _ _ => .ok ()) (fun _ _ => .error "boom")
      (fun _ _ => .ok ()) () = .error "boom" :=
  ((validate_chain_spec (fun _ : Unit => ()) "q" (fun _ _ => .ok ())
    (fun _ _ => .error "boom") (fun _ _ => .ok ()) ()).2.2.2.2.1 "boom" rfl rfl).2

/-- C10: with no parsed statement in the query field, all three standard
    validators succeed silently. -/
theorem validators_absent_statement (q : InputQuery) (name : String)
    (h : q.stm = none) :
    noGroupByHaving q name = .ok () ∧ plainColumnSelect q name = .ok () ∧
      featuresLabelSelect q name = .ok () := by
  simp [noGroupByHaving, plainColumnSelect, featuresLabelSelect, h]

/-- Witness for C10 at the empty query field. -/
theorem validators_absent_statement_witness :
    noGroupByHaving ⟨none⟩ "f" = .ok () ∧ plainColumnSelect ⟨none⟩ "f" = .ok () ∧
      featuresLabelSelect ⟨none⟩ "f" = .ok () :=
  validators_absent_statement ⟨none⟩ "f" rfl

/-! ## Claims about the configuration merge -/

/-- C6: merging any static configuration tree with an empty override (an
    empty object, or the null encoding of absent params) returns the tree
    unchanged: the empty override is a right identity of the merge. -/
theorem jsonUpdate_empty_override (a : Json) :
    jsonUpdate a (.obj []) = a ∧ jsonUpdate a .null = a := by
  constructor <;> cases a <;> simp [jsonUpdate, Json.isObjectShaped]

/-- C7: `applyRunConfOverProcConf` computes its result from a fresh copy of
    the static configuration's encoding and hands back both inputs unchanged;
    the effective configuration is the decode of the merge of the originals. -/
theorem applyRunConfOverProcConf_frame {Config : Type} (enc : Config → Json)
    (dec : Json → Except String Config) (procConf : Config)
    (run : ProcedureRunConfig) :
    (applyRunConfOverProcConf enc dec procConf run).2.1 = procConf ∧
    (applyRunConfOverProcConf enc dec procConf run).2.2 = run ∧
    (applyRunConfOverProcConf enc dec procConf run).1
      = dec (jsonUpdate (enc procConf) run.params) :=
  ⟨rfl, rfl, rfl⟩

/-- C8: the merged tree is decoded with the kind's decoder, the same one
    construction applies to a static configuration tree, so an override that
    breaks the schema yields for that run exactly the decode error the same
    tree would yield at construction time. -/
theorem applyRunConfOverProcConf_decode_error {Config : Type} (enc : Config → Json)
    (dec : Json → Except String Config) (procConf : Config)
    (run : ProcedureRunConfig) (e : String)
    (h : dec (jsonUpdate (enc procConf) run.params) = .error e) :
    (applyRunConfOverProcConf enc dec procConf run).1 = .error e ∧
    constructionDecode dec (jsonUpdate (enc procConf) run.params) = .error e :=
  ⟨h, h⟩

/-- Witness for C8: a one-field boolean schema rejects an override that sets
    the field to a number, and the run-time error is the construction-time
    error of the merged tree. -/
theorem applyRunConfOverProcConf_decode_error_witness :
    (fun j => match j with
      | Json.obj [("runOnCreation", Json.bool v)] => Except.ok v
      | _ => Except.error "configuration invalid")
        (jsonUpdate ((fun b => Json.obj [("runOnCreation", Json.bool b)]) true)
          (ProcedureRunConfig.mk "r1" (Json.obj [("runOnCreation", Json.num 1)])).params)
      = Except.error "configuration invalid" ∧
    ((applyRunConfOverProcConf (fun b => Json.obj [("runOnCreation", Json.bool b)])
        (fun j => match j with
          | Json.obj [("runOnCreation", Json.bool v)] => Except.ok v
          | _ => Except.error "configuration invalid")
        true (ProcedureRunConfig.mk "r1" (Json.obj [("runOnCreation", Json.num 1)]))).1
      = Except.error "configuration invalid" ∧
    constructionDecode
        (fun j => match j with
          | Json.obj [("runOnCreation", Json.bool v)] => Except.ok v
          | _ => Except.error "configuration invalid")
        (jsonUpdate ((fun b => Json.obj [("runOnCreation", Json.bool b)]) true)
          (ProcedureRunConfig.mk "r1" (Json.obj [("runOnCreation", Json.num 1)])).params)
      = Except.error "configuration invalid") := by
  have hmerge : jsonUpdate (Json.obj [("runOnCreation", Json.bool true)])
      (Json.obj [("runOnCreation", Json.num 1)])
      = Json.obj [("runOnCreation", Json.num 1)] := by
    simp [jsonUpdate, updateMembers, updateStep, setMem, getMem, isMember, lookupMem, Json.membersOf,
      Json.isObjectShaped]
  refine ⟨?_, ?_⟩
  · show (match jsonUpdate (Json.obj [("runOnCreation", Json.bool true)])
        (Json.obj [("runOnCreation", Json.num 1)]) with
      | Json.obj [("runOnCreation", Json.bool v)] => Except.ok v
      | _ => Except.error "configuration invalid") = Except.error "configuration invalid"
    rw [hmerge]
    exact rfl
  · exact applyRunConfOverProcConf_decode_error _ _ true _ "configuration invalid"
      (by
        rw [show (ProcedureRunConfig.mk "r1" (Json.obj [("runOnCreation", Json.num 1)])).params
            = Json.obj [("runOnCreation", Json.num 1)] from rfl, hmerge]
        exact rfl)


/-- C9: a run whose params encode to a value that is not object-shaped is
    silently ignored by the merge's top-level guard: the merged tree is the
    static tree unchanged, and the effective configuration is the decode of
    the static tree's encoding. -/
theorem jsonUpdate_nonobject_override {Config : Type} (enc : Config → Json)
    (dec : Json → Except String Config) (procConf : Config) (a b : Json)
    (rid : String) (h : b.isObjectShaped = false) :
    jsonUpdate a b = a ∧
    (applyRunConfOverProcConf enc dec procConf (ProcedureRunConfig.mk rid b)).1
      = dec (enc procConf) := by
  have hu : ∀ x, jsonUpdate x b = x := by
    intro x
    cases b <;> simp_all [jsonUpdate, Json.isObjectShaped]
  exact ⟨hu a, by simp [applyRunConfOverProcConf, hu]⟩

/-- Witness for C9: an array-valued override is ignored. -/
theorem jsonUpdate_nonobject_override_witness :
    jsonUpdate (Json.obj [("x", Json.num 1)]) (Json.arr [Json.num 2])
      = Json.obj [("x", Json.num 1)] ∧
    (applyRunConfOverProcConf (fun j : Json => j) Except.ok (Json.obj [("x", Json.num 1)])
        (ProcedureRunConfig.mk "r" (Json.arr [Json.num 2]))).1
      = Except.ok (Json.obj [("x", Json.num 1)]) :=
  jsonUpdate_nonobject_override (fun j : Json => j) Except.ok (Json.obj [("x", Json.num 1)])
    (Json.obj [("x", Json.num 1)]) (Json.arr [Json.num 2]) "r" rfl

/-- Counterexample for C1: at the shared key `k`, the static tree holds the
    scalar `1` and the override holds the (object-shaped) empty object; the
    spec's rules replace the scalar by `B`'s value, while the code's `update`
    recurses into a non-object `a[k]` and returns it unchanged, keeping `1`. -/
theorem jsonUpdate_ne_specMerge :
    jsonUpdate (Json.obj [("k", Json.num 1)]) (Json.obj [("k", Json.obj [])])
        = Json.obj [("k", Json.num 1)] ∧
    specMergeVal (Json.obj [("k", Json.num 1)]) (Json.obj [("k", Json.obj [])])
        = Json.obj [("k", Json.obj [])] ∧
    jsonUpdate (Json.obj [("k", Json.num 1)]) (Json.obj [("k", Json.obj [])])
        ≠ specMergeVal (Json.obj [("k", Json.num 1)]) (Json.obj [("k", Json.obj [])]) := by
  refine ⟨?_, ?_, ?_⟩
  · simp [jsonUpdate, updateMembers, updateStep, setMem, getMem, isMember, lookupMem, Json.membersOf,
      Json.isObjectShaped]
  · simp [specMergeVal, specMergeMembers]
  · intro hcontra
    rw [show jsonUpdate (Json.obj [("k", Json.num 1)]) (Json.obj [("k", Json.obj [])])
          = Json.obj [("k", Json.num 1)] by
        simp [jsonUpdate, updateMembers, updateStep, setMem, getMem, isMember, lookupMem, Json.membersOf,
          Json.isObjectShaped],
      show specMergeVal (Json.obj [("k", Json.num 1)]) (Json.obj [("k", Json.obj [])])
          = Json.obj [("k", Json.obj [])] by simp [specMergeVal, specMergeMembers]] at hcontra
    simp at hcontra

/-! ## Infrastructure for the merge equivalence (C1) -/

/-- Strict key-sortedness of a member list. -/
def ksorted (ms : List (String × Json)) : Prop :=
  List.Pairwise (fun p q => p.1 < q.1) ms

theorem msWf_cons_iff (k : String) (v : Json) (rest : List (String × Json)) :
    msWf ((k, v) :: rest) = true ↔
      v.wf = true ∧ (∀ p ∈ rest, k < p.1) ∧ msWf rest = true := by
  simp [msWf, List.all_eq_true, and_assoc]

theorem msWf_ksorted (ms : List (String × Json)) (h : msWf ms = true) : ksorted ms := by
  induction ms with
  | nil => exact List.Pairwise.nil
  | cons p rest ih =>
    obtain ⟨k, v⟩ := p
    rw [msWf_cons_iff] at h
    exact List.Pairwise.cons h.2.1 (ih h.2.2)

theorem msWf_lookup (ms : List (String × Json)) (k : String) (v : Json)
    (hwf : msWf ms = true) (hl : lookupMem ms k = some v) : v.wf = true := by
  induction ms with
  | nil => simp [lookupMem] at hl
  | cons p rest ih =>
    obtain ⟨k1, v1⟩ := p
    rw [msWf_cons_iff] at hwf
    by_cases hk : k1 = k
    · simp only [lookupMem, hk, if_true] at hl
      cases hl
      exact hwf.1
    · simp only [lookupMem, hk, if_false] at hl
      exact ih hwf.2.2 hl

theorem wf_getMem (ms : List (String × Json)) (k : String) (hwf : msWf ms = true) :
    (getMem ms k).wf = true := by
  unfold getMem
  cases hl : lookupMem ms k with
  | none => simp [Json.wf]
  | some v => exact msWf_lookup ms k v hwf hl

theorem wf_membersOf (x : Json) (h : x.wf = true) : msWf x.membersOf = true := by
  cases x <;> simp_all [Json.membersOf, Json.wf, msWf]

theorem lookupMem_none_of_forall_gt (ms : List (String × Json)) (k : String)
    (hall : ∀ p ∈ ms, k < p.1) : lookupMem ms k = none := by
  induction ms with
  | nil => rfl
  | cons p rest ih =>
    obtain ⟨k1, v1⟩ := p
    have hk1 : k < k1 := hall (k1, v1) (by simp)
    have : k1 ≠ k := fun he => absurd (he ▸ hk1) (lt_irrefl k1)
    simp only [lookupMem, this, if_false]
    exact ih fun p hp => hall p (by simp [hp])

theorem sorted_ext (l1 : List (String × Json)) :
    ∀ l2, ksorted l1 → ksorted l2 →
      (∀ k, lookupMem l1 k = lookupMem l2 k) → l1 = l2 := by
  induction l1 with
  | nil =>
    intro l2 _ h2 h
    cases l2 with
    | nil => rfl
    | cons p t2 =>
      obtain ⟨k2, v2⟩ := p
      have := h k2
      simp [lookupMem] at this
  | cons p t1 ih =>
    intro l2 h1 h2 h
    obtain ⟨k1, v1⟩ := p
    cases l2 with
    | nil =>
      have := h k1
      simp [lookupMem] at this
    | cons q t2 =>
      obtain ⟨k2, v2⟩ := q
      rw [ksorted, List.pairwise_cons] at h1 h2
      rcases lt_trichotomy k1 k2 with hlt | heq | hgt
      · exfalso
        have hk := h k1
        have hnone : lookupMem t2 k1 = none :=
          lookupMem_none_of_forall_gt t2 k1 fun p hp => lt_trans hlt (h2.1 p hp)
        have : k2 ≠ k1 := fun he => absurd (he ▸ hlt) (lt_irrefl k1)
        simp [lookupMem, this, hnone] at hk
      · subst heq
        have hv : v1 = v2 := by
          have hk := h k1
          simpa [lookupMem] using hk
        subst hv
        have htail : t1 = t2 := by
          apply ih t2 h1.2 h2.2
          intro k
          by_cases hk1 : k1 = k
          · subst hk1
            rw [lookupMem_none_of_forall_gt t1 k1 h1.1,
              lookupMem_none_of_forall_gt t2 k1 h2.1]
          · have hk := h k
            simpa [lookupMem, hk1] using hk
        rw [htail]
      · exfalso
        have hk := h k2
        have hnone : lookupMem t1 k2 = none :=
          lookupMem_none_of_forall_gt t1 k2 fun p hp => lt_trans hgt (h1.1 p hp)
        have : k1 ≠ k2 := fun he => absurd (he ▸ hgt) (lt_irrefl k2)
        simp [lookupMem, this, hnone] at hk


theorem lookupMem_setMem (ms : List (String × Json)) (k : String) (v : Json)
    (k' : String) :
    lookupMem (setMem ms k v) k' = if k' = k then some v else lookupMem ms k' := by
  induction ms with
  | nil =>
    simp only [setMem, lookupMem]
    by_cases hk : k = k'
    · subst hk; simp
    · simp [hk, Ne.symm hk]
  | cons q rest ih =>
    obtain ⟨k1, v1⟩ := q
    rcases lt_trichotomy k k1 with hlt | heq | hgt
    · simp only [setMem, hlt, if_true, lookupMem]
      by_cases hk : k = k'
      · subst hk; simp
      · simp [hk, Ne.symm hk, lookupMem]
    · subst heq
      have hsm : setMem ((k, v1) :: rest) k v = (k, v) :: rest := by simp [setMem]
      rw [hsm]
      simp only [lookupMem]
      by_cases hk : k = k'
      · subst hk; simp
      · simp [hk, Ne.symm hk]
    · have h1 : ¬ k < k1 := not_lt_of_gt hgt
      have hne : ¬ k1 = k := fun he => absurd (he ▸ hgt) (lt_irrefl k)
      simp only [setMem, h1, if_false, hgt, if_true, lookupMem]
      by_cases hk : k1 = k'
      · have hne2 : ¬ k' = k := by rw [← hk]; exact hne
        simp [hk, hne2]
      · simp [hk, ih]

theorem mem_setMem (ms : List (String × Json)) (k : String) (v : Json) :
    ∀ p ∈ setMem ms k v, p.1 = k ∨ ∃ q ∈ ms, p.1 = q.1 := by
  induction ms with
  | nil =>
    intro p hp
    simp only [setMem, List.mem_singleton] at hp
    left; rw [hp]
  | cons q rest ih =>
    obtain ⟨k1, v1⟩ := q
    intro p hp
    rcases lt_trichotomy k k1 with hlt | heq | hgt
    · simp only [setMem, hlt, if_true, List.mem_cons] at hp
      rcases hp with hp | hp | hp
      · left; rw [hp]
      · right; exact ⟨(k1, v1), by simp, by rw [hp]⟩
      · right; exact ⟨p, by simp [hp], rfl⟩
    · subst heq
      have hsm : setMem ((k, v1) :: rest) k v = (k, v) :: rest := by simp [setMem]
      rw [hsm] at hp
      simp only [List.mem_cons] at hp
      rcases hp with hp | hp
      · left; rw [hp]
      · right; exact ⟨p, by simp [hp], rfl⟩
    · have h1 : ¬ k < k1 := not_lt_of_gt hgt
      simp only [setMem, h1, if_false, hgt, if_true, List.mem_cons] at hp
      rcases hp with hp | hp
      · right; exact ⟨(k1, v1), by simp, by rw [hp]⟩
      · rcases ih p hp with h | ⟨q, hq, he⟩
        · left; exact h
        · right; exact ⟨q, by simp [hq], he⟩

theorem setMem_sorted (ms : List (String × Json)) (k : String) (v : Json)
    (h : ksorted ms) : ksorted (setMem ms k v) := by
  induction ms with
  | nil => simp [setMem, ksorted]
  | cons q rest ih =>
    obtain ⟨k1, v1⟩ := q
    rw [ksorted, List.pairwise_cons] at h
    rcases lt_trichotomy k k1 with hlt | heq | hgt
    · simp only [setMem, hlt, if_true]
      rw [ksorted, List.pairwise_cons]
      refine ⟨?_, ?_⟩
      · intro p hp
        simp only [List.mem_cons] at hp
        rcases hp with hp | hp
        · rw [hp]; exact hlt
        · exact lt_trans hlt (h.1 p hp)
      · rw [List.pairwise_cons]
        exact ⟨h.1, h.2⟩
    · subst heq
      have hsm : setMem ((k, v1) :: rest) k v = (k, v) :: rest := by simp [setMem]
      rw [hsm, ksorted, List.pairwise_cons]
      exact ⟨h.1, h.2⟩
    · have h1 : ¬ k < k1 := not_lt_of_gt hgt
      simp only [setMem, h1, if_false, hgt, if_true]
      rw [ksorted, List.pairwise_cons]
      refine ⟨?_, ?_⟩
      · intro p hp
        rcases mem_setMem rest k v p hp with he | ⟨q, hq, he⟩
        · rw [he]; exact hgt
        · rw [he]; exact h.1 q hq
      · exact ih h.2

theorem lookupMem_of_not_isMember (ms : List (String × Json)) (k : String)
    (h : isMember ms k = false) : lookupMem ms k = none := by
  unfold isMember at h
  cases hl : lookupMem ms k with
  | none => rfl
  | some v => rw [hl] at h; simp at h

theorem getMem_ms0 (ms : List (String × Json)) (k : String) :
    getMem (if isMember ms k then ms else setMem ms k .null) k = getMem ms k := by
  by_cases hm : isMember ms k
  · simp [hm]
  · simp only [hm, if_false, Bool.false_eq_true]
    unfold getMem
    rw [lookupMem_setMem, if_pos rfl, lookupMem_of_not_isMember ms k (by simpa using hm)]
    rfl

theorem lookupMem_ms0_other (ms : List (String × Json)) (k k' : String) (h : ¬ k' = k) :
    lookupMem (if isMember ms k then ms else setMem ms k .null) k' = lookupMem ms k' := by
  by_cases hm : isMember ms k
  · simp [hm]
  · simp only [hm, if_false, Bool.false_eq_true]
    rw [lookupMem_setMem, if_neg h]

theorem lookupMem_updateStep_self (ms : List (String × Json)) (k : String) (bv : Json) :
    lookupMem (updateStep ms k bv) k =
      some (if bv.isObjectShaped then jsonUpdate (getMem ms k) bv else bv) := by
  by_cases hb : bv.isObjectShaped
  · simp only [updateStep, hb, if_true]
    rw [lookupMem_setMem, if_pos rfl, getMem_ms0]
  · simp only [updateStep, hb, Bool.false_eq_true, if_false]
    rw [lookupMem_setMem, if_pos rfl]

theorem lookupMem_updateStep_other (ms : List (String × Json)) (k : String) (bv : Json)
    (k' : String) (h : ¬ k' = k) :
    lookupMem (updateStep ms k bv) k' = lookupMem ms k' := by
  by_cases hb : bv.isObjectShaped
  · simp only [updateStep, hb, if_true]
    rw [lookupMem_setMem, if_neg h, lookupMem_ms0_other ms k k' h]
  · simp only [updateStep, hb, Bool.false_eq_true, if_false]
    rw [lookupMem_setMem, if_neg h]

theorem getMem_updateStep_other (ms : List (String × Json)) (k : String) (bv : Json)
    (k' : String) (h : ¬ k' = k) :
    getMem (updateStep ms k bv) k' = getMem ms k' := by
  unfold getMem
  rw [lookupMem_updateStep_other ms k bv k' h]

theorem updateStep_sorted (ms : List (String × Json)) (k : String) (bv : Json)
    (h : ksorted ms) : ksorted (updateStep ms k bv) := by
  by_cases hb : bv.isObjectShaped
  · simp only [updateStep, hb, if_true]
    apply setMem_sorted
    by_cases hm : isMember ms k
    · simpa [hm] using h
    · simp only [hm, if_false, Bool.false_eq_true]
      exact setMem_sorted ms k .null h
  · simp only [updateStep, hb, Bool.false_eq_true, if_false]
    exact setMem_sorted ms k bv h

theorem updateMembers_sorted (bs : List (String × Json)) :
    ∀ ms, ksorted ms → ksorted (updateMembers ms bs) := by
  induction bs with
  | nil => intro ms h; simpa [updateMembers] using h
  | cons p rest ih =>
    obtain ⟨k, bv⟩ := p
    intro ms h
    rw [show updateMembers ms ((k, bv) :: rest) = updateMembers (updateStep ms k bv) rest
      from by simp [updateMembers]]
    exact ih _ (updateStep_sorted ms k bv h)

theorem lookupMem_updateMembers_none (bs : List (String × Json)) :
    ∀ ms k, lookupMem bs k = none →
      lookupMem (updateMembers ms bs) k = lookupMem ms k := by
  induction bs with
  | nil => intro ms k _; simp [updateMembers]
  | cons p rest ih =>
    obtain ⟨kb, bv⟩ := p
    intro ms k h
    by_cases hkb : kb = k
    · simp [lookupMem, hkb] at h
    · simp only [lookupMem, hkb, if_false] at h
      rw [show updateMembers ms ((kb, bv) :: rest) = updateMembers (updateStep ms kb bv) rest
        from by simp [updateMembers]]
      rw [ih _ k h, lookupMem_updateStep_other ms kb bv k (fun he => hkb he.symm)]

theorem lookupMem_updateMembers_some (bs : List (String × Json)) :
    ∀ ms k bv, ksorted bs → lookupMem bs k = some bv →
      lookupMem (updateMembers ms bs) k =
        some (if bv.isObjectShaped then jsonUpdate (getMem ms k) bv else bv) := by
  induction bs with
  | nil => intro ms k bv _ h; simp [lookupMem] at h
  | cons p rest ih =>
    obtain ⟨kb, bv'⟩ := p
    intro ms k bv hs h
    rw [ksorted, List.pairwise_cons] at hs
    rw [show updateMembers ms ((kb, bv') :: rest) = updateMembers (updateStep ms kb bv') rest
      from by simp [updateMembers]]
    by_cases hkb : kb = k
    · subst hkb
      have hbv : bv' = bv := by simpa [lookupMem] using h
      subst hbv
      have hrest : lookupMem rest kb = none :=
        lookupMem_none_of_forall_gt rest kb hs.1
      rw [lookupMem_updateMembers_none rest _ kb hrest, lookupMem_updateStep_self]
    · simp only [lookupMem, hkb, if_false] at h
      rw [ih _ k bv hs.2 h, getMem_updateStep_other ms kb bv' k (fun he => hkb he.symm)]

theorem sizeOf_tail_lt (p : String × Json) (l : List (String × Json)) :
    sizeOf l < sizeOf (p :: l) := by
  simp

theorem sizeOf_lookupMem (ms : List (String × Json)) (k : String) (v : Json)
    (h : lookupMem ms k = some v) : sizeOf v < sizeOf ms := by
  induction ms with
  | nil => simp [lookupMem] at h
  | cons p rest ih =>
    obtain ⟨k1, v1⟩ := p
    by_cases hk : k1 = k
    · simp only [lookupMem, hk, if_true] at h
      cases h
      simp
      omega
    · simp only [lookupMem, hk, if_false] at h
      exact lt_trans (ih h) (sizeOf_tail_lt (k1, v1) rest)

theorem lookupMem_some_gt (ms : List (String × Json)) (k c : String) (v : Json)
    (hall : ∀ p ∈ ms, c < p.1) (h : lookupMem ms k = some v) : c < k := by
  induction ms with
  | nil => simp [lookupMem] at h
  | cons p rest ih =>
    obtain ⟨k1, v1⟩ := p
    by_cases hk : k1 = k
    · subst hk
      exact hall (k1, v1) (by simp)
    · simp only [lookupMem, hk, if_false] at h
      exact ih (fun p hp => hall p (by simp [hp])) h

theorem refMergeMembers_nil_right (as : List (String × Json)) :
    refMergeMembers as [] = as := by
  cases as <;> simp [refMergeMembers]

theorem lookupMem_refMergeMembers_none :
    ∀ m bs, sizeOf bs ≤ m → ∀ (as : List (String × Json)) k, lookupMem bs k = none →
      lookupMem (refMergeMembers as bs) k = lookupMem as k := by
  intro m
  induction m using Nat.strong_induction_on with
  | _ m ihm =>
    intro bs hm as k hnone
    cases bs with
    | nil => rw [refMergeMembers_nil_right]
    | cons pb rest =>
      obtain ⟨kb, vb⟩ := pb
      have hkb : ¬ kb = k := by
        intro he
        simp [lookupMem, he] at hnone
      have hrest : lookupMem rest k = none := by
        simpa [lookupMem, hkb] using hnone
      have hmrest : sizeOf rest ≤ m - 1 := by
        have := sizeOf_tail_lt (kb, vb) rest
        omega
      have hrec : ∀ as' : List (String × Json),
          lookupMem (refMergeMembers as' rest) k = lookupMem as' k := by
        intro as'
        exact ihm (sizeOf rest) (by have := sizeOf_tail_lt (kb, vb) rest; omega) rest
          le_rfl as' k hrest
      induction as with
      | nil =>
        simp only [refMergeMembers, lookupMem, hkb, if_false]
        exact hrec []
      | cons pa tas iha =>
        obtain ⟨ka, va⟩ := pa
        rcases lt_trichotomy ka kb with hlt | heq | hgt
        · simp only [refMergeMembers, hlt, if_true, lookupMem]
          by_cases hka : ka = k
          · simp [hka]
          · simp only [hka, if_false]
            exact iha
        · subst heq
          simp only [refMergeMembers, lt_irrefl, if_false, lookupMem, hkb]
          exact hrec tas
        · have h1 : ¬ ka < kb := not_lt_of_gt hgt
          simp only [refMergeMembers, h1, if_false, hgt, if_true, lookupMem, hkb]
          exact hrec ((ka, va) :: tas)

theorem lookupMem_refMergeMembers_some :
    ∀ m bs, sizeOf bs ≤ m → ∀ (as : List (String × Json)) k bv,
      ksorted as → ksorted bs → lookupMem bs k = some bv →
      lookupMem (refMergeMembers as bs) k = some (refMergeVal (getMem as k) bv) := by
  intro m
  induction m using Nat.strong_induction_on with
  | _ m ihm =>
    intro bs hm as k bv hsa hsb hsome
    cases bs with
    | nil => simp [lookupMem] at hsome
    | cons pb rest =>
      obtain ⟨kb, vb⟩ := pb
      rw [ksorted, List.pairwise_cons] at hsb
      have hszrest : sizeOf rest < m := by
        have := sizeOf_tail_lt (kb, vb) rest
        omega
      by_cases hkb : kb = k
      · subst hkb
        have hbv : vb = bv := by simpa [lookupMem] using hsome
        subst hbv
        revert hsa
        induction as with
        | nil =>
          intro _
          simp only [refMergeMembers, lookupMem, if_pos rfl]
          simp [getMem, lookupMem]
        | cons pa tas iha =>
          intro hsa
          obtain ⟨ka, va⟩ := pa
          rw [ksorted, List.pairwise_cons] at hsa
          rcases lt_trichotomy ka kb with hlt | heq | hgt
          · have hka : ¬ ka = kb := ne_of_lt hlt
            simp only [refMergeMembers, hlt, if_true, lookupMem, hka, if_false]
            rw [show getMem ((ka, va) :: tas) kb = getMem tas kb from by
              simp [getMem, lookupMem, hka]]
            exact iha hsa.2
          · subst heq
            simp only [refMergeMembers, lt_irrefl, if_false, lookupMem]
            rw [show getMem ((ka, va) :: tas) ka = va from by simp [getMem, lookupMem]]
            simp
          · have h1 : ¬ ka < kb := not_lt_of_gt hgt
            have hka : ¬ ka = kb := fun he => absurd (he ▸ hgt) (lt_irrefl ka)
            have htas : lookupMem tas kb = none :=
              lookupMem_none_of_forall_gt tas kb fun p hp => lt_trans hgt (hsa.1 p hp)
            simp only [refMergeMembers, h1, if_false, hgt, if_true, lookupMem, if_pos rfl]
            rw [show getMem ((ka, va) :: tas) kb = Json.null from by
              simp [getMem, lookupMem, hka, htas]]
      · have hrest : lookupMem rest k = some bv := by simpa [lookupMem, hkb] using hsome
        have hkgt : kb < k := lookupMem_some_gt rest k kb bv hsb.1 hrest
        revert hsa
        induction as with
        | nil =>
          intro _
          simp only [refMergeMembers, lookupMem, hkb, if_false]
          exact ihm (sizeOf rest) hszrest rest le_rfl [] k bv List.Pairwise.nil hsb.2 hrest
        | cons pa tas iha =>
          intro hsa
          obtain ⟨ka, va⟩ := pa
          rw [ksorted, List.pairwise_cons] at hsa
          rcases lt_trichotomy ka kb with hlt | heq | hgt
          · have hka : ¬ ka = k := ne_of_lt (lt_trans hlt hkgt)
            simp only [refMergeMembers, hlt, if_true, lookupMem, hka, if_false]
            rw [show getMem ((ka, va) :: tas) k = getMem tas k from by
              simp [getMem, lookupMem, hka]]
            exact iha hsa.2
          · subst heq
            simp only [refMergeMembers, lt_irrefl, if_false, lookupMem, hkb, if_false]
            rw [show getMem ((ka, va) :: tas) k = getMem tas k from by
              simp [getMem, lookupMem, hkb]]
            exact ihm (sizeOf rest) hszrest rest le_rfl tas k bv hsa.2 hsb.2 hrest
          · have h1 : ¬ ka < kb := not_lt_of_gt hgt
            simp only [refMergeMembers, h1, if_false, hgt, if_true, lookupMem, hkb, if_false]
            exact ihm (sizeOf rest) hszrest rest le_rfl ((ka, va) :: tas) k bv
              (List.pairwise_cons.mpr ⟨hsa.1, hsa.2⟩) hsb.2 hrest

theorem mem_refMergeMembers :
    ∀ m bs, sizeOf bs ≤ m → ∀ (as : List (String × Json)), ∀ p ∈ refMergeMembers as bs,
      (∃ q ∈ as, p.1 = q.1) ∨ ∃ q ∈ bs, p.1 = q.1 := by
  intro m
  induction m using Nat.strong_induction_on with
  | _ m ihm =>
    intro bs hm as p hp
    cases bs with
    | nil =>
      rw [refMergeMembers_nil_right] at hp
      left
      exact ⟨p, hp, rfl⟩
    | cons pb rest =>
      obtain ⟨kb, vb⟩ := pb
      have hszrest : sizeOf rest < m := by
        have := sizeOf_tail_lt (kb, vb) rest
        omega
      revert hp
      induction as with
      | nil =>
        intro hp
        simp only [refMergeMembers, List.mem_cons] at hp
        rcases hp with hp | hp
        · right; exact ⟨(kb, vb), by simp, by rw [hp]⟩
        · rcases ihm (sizeOf rest) hszrest rest le_rfl [] p hp with ⟨q, hq, _⟩ | ⟨q, hq, he⟩
          · simp at hq
          · right; exact ⟨q, by simp [hq], he⟩
      | cons pa tas iha =>
        intro hp
        obtain ⟨ka, va⟩ := pa
        rcases lt_trichotomy ka kb with hlt | heq | hgt
        · simp only [refMergeMembers, hlt, if_true, List.mem_cons] at hp
          rcases hp with hp | hp
          · left; exact ⟨(ka, va), by simp, by rw [hp]⟩
          · rcases iha hp with ⟨q, hq, he⟩ | h
            · left; exact ⟨q, by simp [hq], he⟩
            · right; exact h
        · subst heq
          simp only [refMergeMembers, lt_irrefl, if_false, List.mem_cons] at hp
          rcases hp with hp | hp
          · left; exact ⟨(ka, va), by simp, by rw [hp]⟩
          · rcases ihm (sizeOf rest) hszrest rest le_rfl tas p hp with ⟨q, hq, he⟩ | ⟨q, hq, he⟩
            · left; exact ⟨q, by simp [hq], he⟩
            · right; exact ⟨q, by simp [hq], he⟩
        · have h1 : ¬ ka < kb := not_lt_of_gt hgt
          simp only [refMergeMembers, h1, if_false, hgt, if_true, List.mem_cons] at hp
          rcases hp with hp | hp
          · right; exact ⟨(kb, vb), by simp, by rw [hp]⟩
          · rcases ihm (sizeOf rest) hszrest rest le_rfl ((ka, va) :: tas) p hp with
              ⟨q, hq, he⟩ | ⟨q, hq, he⟩
            · left; exact ⟨q, hq, he⟩
            · right; exact ⟨q, by simp [hq], he⟩

theorem refMergeMembers_sorted :
    ∀ m bs, sizeOf bs ≤ m → ∀ as, ksorted as → ksorted bs →
      ksorted (refMergeMembers as bs) := by
  intro m
  induction m using Nat.strong_induction_on with
  | _ m ihm =>
    intro bs hm as hsa hsb
    cases bs with
    | nil => rw [refMergeMembers_nil_right]; exact hsa
    | cons pb rest =>
      obtain ⟨kb, vb⟩ := pb
      rw [ksorted, List.pairwise_cons] at hsb
      have hszrest : sizeOf rest < m := by
        have := sizeOf_tail_lt (kb, vb) rest
        omega
      revert hsa
      induction as with
      | nil =>
        intro _
        simp only [refMergeMembers]
        rw [ksorted, List.pairwise_cons]
        refine ⟨?_, ?_⟩
        · intro p hp
          rcases mem_refMergeMembers (sizeOf rest) rest le_rfl [] p hp with
            ⟨q, hq, _⟩ | ⟨q, hq, he⟩
          · simp at hq
          · rw [he]; exact hsb.1 q hq
        · exact ihm (sizeOf rest) hszrest rest le_rfl [] List.Pairwise.nil hsb.2
      | cons pa tas iha =>
        intro hsa
        obtain ⟨ka, va⟩ := pa
        rw [ksorted, List.pairwise_cons] at hsa
        rcases lt_trichotomy ka kb with hlt | heq | hgt
        · simp only [refMergeMembers, hlt, if_true]
          rw [ksorted, List.pairwise_cons]
          refine ⟨?_, ?_⟩
          · intro p hp
            rcases mem_refMergeMembers (sizeOf ((kb, vb) :: rest)) ((kb, vb) :: rest) le_rfl
              tas p hp with ⟨q, hq, he⟩ | ⟨q, hq, he⟩
            · rw [he]; exact hsa.1 q hq
            · simp only [List.mem_cons] at hq
              rcases hq with hq | hq
              · rw [he, hq]; exact hlt
              · rw [he]; exact lt_trans hlt (hsb.1 q hq)
          · exact iha hsa.2
        · subst heq
          simp only [refMergeMembers, lt_irrefl, if_false]
          rw [ksorted, List.pairwise_cons]
          refine ⟨?_, ?_⟩
          · intro p hp
            rcases mem_refMergeMembers (sizeOf rest) rest le_rfl tas p hp with
              ⟨q, hq, he⟩ | ⟨q, hq, he⟩
            · rw [he]; exact hsa.1 q hq
            · rw [he]; exact hsb.1 q hq
          · exact ihm (sizeOf rest) hszrest rest le_rfl tas hsa.2 hsb.2
        · have h1 : ¬ ka < kb := not_lt_of_gt hgt
          simp only [refMergeMembers, h1, if_false, hgt, if_true]
          rw [ksorted, List.pairwise_cons]
          refine ⟨?_, ?_⟩
          · intro p hp
            rcases mem_refMergeMembers (sizeOf rest) rest le_rfl ((ka, va) :: tas) p hp with
              ⟨q, hq, he⟩ | ⟨q, hq, he⟩
            · simp only [List.mem_cons] at hq
              rcases hq with hq | hq
              · rw [he, hq]; exact hgt
              · rw [he]; exact lt_trans hgt (hsa.1 q hq)
            · rw [he]; exact hsb.1 q hq
          · exact ihm (sizeOf rest) hszrest rest le_rfl ((ka, va) :: tas)
              (List.pairwise_cons.mpr ⟨hsa.1, hsa.2⟩) hsb.2

theorem updateMembers_eq_refMergeMembers :
    ∀ m bs, sizeOf bs ≤ m → msWf bs = true → ∀ ms, msWf ms = true →
      updateMembers ms bs = refMergeMembers ms bs := by
  intro m
  induction m using Nat.strong_induction_on with
  | _ m ihm =>
    intro bs hm hwb ms hwm
    have hsb : ksorted bs := msWf_ksorted bs hwb
    have hsm : ksorted ms := msWf_ksorted ms hwm
    apply sorted_ext
    · exact updateMembers_sorted bs ms hsm
    · exact refMergeMembers_sorted (sizeOf bs) bs le_rfl ms hsm hsb
    · intro k
      cases hbk : lookupMem bs k with
      | none =>
        rw [lookupMem_updateMembers_none bs ms k hbk,
          lookupMem_refMergeMembers_none (sizeOf bs) bs le_rfl ms k hbk]
      | some bv =>
        rw [lookupMem_updateMembers_some bs ms k bv hsb hbk,
          lookupMem_refMergeMembers_some (sizeOf bs) bs le_rfl ms k bv hsm hsb hbk]
        congr 1
        have hwbv : bv.wf = true := msWf_lookup bs k bv hwb hbk
        have hwx : (getMem ms k).wf = true := wf_getMem ms k hwm
        have hszbv : sizeOf bv < sizeOf bs := sizeOf_lookupMem bs k bv hbk
        by_cases hsh : bv.isObjectShaped
        · rw [if_pos hsh]
          by_cases hxs : (getMem ms k).isObjectShaped
          · cases bv with
            | null => simp [jsonUpdate, refMergeVal, hxs, Json.isObjectShaped]
            | obj ml =>
              cases ml with
              | nil => simp [jsonUpdate, refMergeVal, hxs, Json.isObjectShaped]
              | cons c restb =>
                have hms : msWf (getMem ms k).membersOf = true := wf_membersOf _ hwx
                have hwcl : msWf (c :: restb) = true := by simpa [Json.wf] using hwbv
                have hlt2 : sizeOf (c :: restb) < m := by
                  have h1 : sizeOf (c :: restb) < sizeOf (Json.obj (c :: restb)) := by simp
                  omega
                have heq := ihm (sizeOf (c :: restb)) hlt2 (c :: restb) le_rfl hwcl
                  (getMem ms k).membersOf hms
                simp [jsonUpdate, refMergeVal, hxs, Json.isObjectShaped, heq]
            | bool v => simp [Json.isObjectShaped] at hsh
            | num n => simp [Json.isObjectShaped] at hsh
            | str s => simp [Json.isObjectShaped] at hsh
            | arr l => simp [Json.isObjectShaped] at hsh
          · have hxs' : (getMem ms k).isObjectShaped = false := by simpa using hxs
            have h1 : jsonUpdate (getMem ms k) bv = getMem ms k := by
              rw [jsonUpdate.eq_def]
              simp [hxs']
            have h2 : refMergeVal (getMem ms k) bv = getMem ms k := by
              rw [refMergeVal.eq_def]
              simp [hsh, hxs']
            rw [h1, h2]
        · rw [if_neg hsh]
          have hsh' : bv.isObjectShaped = false := by simpa using hsh
          rw [refMergeVal.eq_def]
          simp [hsh']

/-- C1, amended: on canonical (recursively key-sorted) configuration trees
    the code's merge equals the reference deep merge given by the amended
    rules of `refMergeVal`/`refMergeMembers`: a key only in `A` is kept; a
    key in both where `B`'s value is not object-shaped is replaced by `B`'s
    value; a key in both where `B`'s value is object-shaped is merged
    recursively when `A`'s value is object-shaped (an empty or null `B` value
    leaving `A`'s value as it was) and is left as `A`'s value when `A`'s
    value is not object-shaped; a key only in `B` is added as `B`'s value
    merged into null. -/
theorem jsonUpdate_eq_refMerge (a b : Json) (ha : a.wf = true) (hb : b.wf = true) :
    jsonUpdate a b = refMerge a b := by
  unfold refMerge
  by_cases hg : (a.isObjectShaped && b.isObjectShaped) = true
  · rw [if_pos hg]
    have has : a.isObjectShaped = true := (Bool.and_eq_true _ _ |>.mp hg).1
    cases b with
    | null => simp [jsonUpdate, refMergeVal, has, Json.isObjectShaped]
    | obj bs =>
      cases bs with
      | nil => simp [jsonUpdate, refMergeVal, has, Json.isObjectShaped]
      | cons c rest =>
        have h1 : msWf (c :: rest) = true := by simpa [Json.wf] using hb
        have h2 : msWf a.membersOf = true := wf_membersOf a ha
        have heq := updateMembers_eq_refMergeMembers (sizeOf (c :: rest)) (c :: rest)
          le_rfl h1 a.membersOf h2
        simp [jsonUpdate, refMergeVal, has, Json.isObjectShaped, heq]
    | bool v => simp [Json.isObjectShaped] at hg
    | num n => simp [Json.isObjectShaped] at hg
    | str s => simp [Json.isObjectShaped] at hg
    | arr l => simp [Json.isObjectShaped] at hg
  · rw [if_neg hg]
    have hg' : (a.isObjectShaped && b.isObjectShaped) = false := by simpa using hg
    rw [jsonUpdate.eq_def]
    simp [hg']

/-- Witness for the amended C1 claim at concrete canonical trees: an
    override that replaces a nested leaf, adds a key, and adds a nested
    object. -/
theorem jsonUpdate_eq_refMerge_witness :
    Json.wf (Json.obj [("alpha", Json.num 1),
      ("mid", Json.obj [("x", Json.num 2)])]) = true ∧
    Json.wf (Json.obj [("mid", Json.obj [("x", Json.num 3), ("y", Json.null)]),
      ("zeta", Json.str "s")]) = true ∧
    jsonUpdate
        (Json.obj [("alpha", Json.num 1), ("mid", Json.obj [("x", Json.num 2)])])
        (Json.obj [("mid", Json.obj [("x", Json.num 3), ("y", Json.null)]),
          ("zeta", Json.str "s")])
      = refMerge
        (Json.obj [("alpha", Json.num 1), ("mid", Json.obj [("x", Json.num 2)])])
        (Json.obj [("mid", Json.obj [("x", Json.num 3), ("y", Json.null)]),
          ("zeta", Json.str "s")]) := by
  refine ⟨?_, ?_, ?_⟩
  · (simp [Json.wf, msWf]; decide)
  · (simp [Json.wf, msWf]; decide)
  · exact jsonUpdate_eq_refMerge _ _ (by (simp [Json.wf, msWf]; decide))
      (by (simp [Json.wf, msWf]; decide))
